import Mathlib

/-!
Shallow embedding of `factorizedCG` (src/core/src/main/cpp/factorizedCG.hpp),
a block conjugate-gradient solver for `(AᵀA + λn·I) X = AᵀY`.

Matrix blocks are functions `Fin rows → Fin cols → ℚ`; the template scalar
`value_type` is instantiated at float64 (per the entry-point signature), so
`machine epsilon` is `2⁻⁵²`, modelled exactly in ℚ.  The code's per-column
convergence test `sqrt(ressqr[i]) < tolerance * nrmb[i]` is embedded in its
squared form `ressqr[i] < tolerance² * nrmbSq[i]` (`nrmbSq[i] = B_iᵀB_i`),
which is equivalent over the reals since both sides of the code's test are
square roots of nonnegative numbers scaled by the positive clamped tolerance;
the equivalence is proved below (`sqrt_test_iff`).
-/

/-- A `rows × cols` rational matrix block. -/
abbrev Mat (rows cols : ℕ) : Type := Fin rows → Fin cols → ℚ

/-- `A·V`: mirrors `base::Gemm(El::NORMAL, El::NORMAL, 1.0, A, V, 0.0, out)`. -/
def mulNN {n d k : ℕ} (A : Mat n d) (V : Mat d k) : Mat n k :=
  fun r c => ∑ j, A r j * V j c

/-- `Aᵀ·V`: mirrors `base::Gemm(El::TRANSPOSE, El::NORMAL, 1.0, A, V, 0.0, out)`. -/
def mulTN {n d k : ℕ} (A : Mat n d) (V : Mat n k) : Mat d k :=
  fun j c => ∑ r, A r j * V r c

/-- Per-column dot product: mirrors `base::ColumnDot(U, V, out)`. -/
def colDot {m k : ℕ} (U V : Mat m k) : Fin k → ℚ :=
  fun i => ∑ j, U j i * V j i

/-- The normal-equation operator `(AᵀA + λn·I)·V`, as the loop body computes `Q`:
`Gemm(NORMAL)` into the scratch block, `Gemm(TRANSPOSE)` out of it, then
`Axpy(lambda*n, V, ·)`.  `n` is the height of `A`. -/
def NEOp {n d k : ℕ} (A : Mat n d) (lam : ℚ) (V : Mat d k) : Mat d k :=
  fun j i => mulTN A (mulNN A V) j i + lam * (n : ℚ) * V j i

/-- `std::numeric_limits<double>::epsilon() = 2⁻⁵²`. -/
def machineEps : ℚ := 1 / 2 ^ 52

/-- `eps = 32*std::numeric_limits<value_type>::epsilon()`. -/
def epsQ : ℚ := 32 * machineEps

/-- Tolerance correction at entry:
`if (tolerance<eps) tolerance=eps; else if (tolerance>=1.0) tolerance=(1-eps);`. -/
def clampTol (t : ℚ) : ℚ :=
  if t < epsQ then epsQ else if 1 ≤ t then 1 - epsQ else t

/-- The solver's mutable per-call state.  `B` and `nrmbSq` are written once
before the loop and only read afterwards; carrying them in the state lets us
prove they are never recomputed.  `nrmbSq i = ‖B_i‖²` stands for the square of
the code's `nrmb[i]` (the norm itself is irrational in general). -/
structure CGState (d k : ℕ) where
  B : Mat d k
  nrmbSq : Fin k → ℚ
  X : Mat d k
  R : Mat d k
  P : Mat d k
  rho0 : Fin k → ℚ
  ressqr : Fin k → ℚ

/-- The preconditioned residual `Z`: with no preconditioner (`none`, the
`outplace_id_precond_t` default with matching element types) `Z` aliases `R`;
otherwise `Z = M.apply(R)`. -/
def ZOf {d k : ℕ} (M : Option (Mat d k → Mat d k)) (s : CGState d k) : Mat d k :=
  match M with
  | some f => f s.R
  | none => s.R

/-- `rho`: with a preconditioner, `ColumnDot(R, Z, rho)`; otherwise the code
reuses `ressqr` (`rho = ressqr`), exploiting the `Z = R` aliasing. -/
def rhoOf {d k : ℕ} (M : Option (Mat d k → Mat d k)) (s : CGState d k) : Fin k → ℚ :=
  match M with
  | some _ => colDot s.R (ZOf M s)
  | none => s.ressqr

/-- The momentum coefficients: `El::Zero(beta)` on iteration 0, else
`beta[i] = rho[i] / rho0[i]`. -/
def betaVec {k : ℕ} (itn : ℕ) (rho rho0 : Fin k → ℚ) : Fin k → ℚ :=
  if itn = 0 then fun _ => 0 else fun i => rho i / rho0 i

/-- One iteration of the `for (itn=0; itn<iter_lim; ...)` body, up to and
including the `ColumnDot(R, R, ressqr)` recomputation (the convergence check
that follows is in `cgLoop`).  Statement order mirrors the source:
`Z`/`rho`, `beta`, `DiagonalScale(RIGHT, beta, P)` then `Axpy(1, Z, P)`,
`Q = (AᵀA + λn·I)P`, `rhotmp = ColumnDot(P, Q)`, `alpha[i] = rho[i]/rhotmp[i]`,
`Axpy(alpha, P, X)`, `Axpy(-alpha, Q, R)`, `rho0 = rho`, new `ressqr`. -/
def iterStep {n d k : ℕ} (A : Mat n d) (lam : ℚ) (M : Option (Mat d k → Mat d k))
    (itn : ℕ) (s : CGState d k) : CGState d k :=
  let Z := ZOf M s
  let rho := rhoOf M s
  let beta := betaVec itn rho s.rho0
  let Pn : Mat d k := fun j i => s.P j i * beta i + Z j i
  let Q := NEOp A lam Pn
  let rhotmp := colDot Pn Q
  let alpha : Fin k → ℚ := fun i => rho i / rhotmp i
  let Xn : Mat d k := fun j i => s.X j i + alpha i * Pn j i
  let Rn : Mat d k := fun j i => s.R j i - alpha i * Q j i
  { B := s.B, nrmbSq := s.nrmbSq, X := Xn, R := Rn, P := Pn,
    rho0 := rho, ressqr := colDot Rn Rn }

/-- The `convg` counter: number of columns with
`sqrt(ressqr[i]) < tolerance*nrmb[i]`, in squared form. -/
def convCount {d k : ℕ} (tol : ℚ) (s : CGState d k) : ℕ :=
  (Finset.univ.filter (fun i : Fin k => s.ressqr i < tol ^ 2 * s.nrmbSq i)).card

/-- The iteration loop.  Returns the status code (`-1` on convergence, `-6` on
budget exhaustion), the final state, and the number of iterations executed
(the third component mirrors the loop counter / the profiler's count of
normal-equation-operator applications inside the loop). -/
def cgLoop {n d k : ℕ} (A : Mat n d) (lam : ℚ) (M : Option (Mat d k → Mat d k))
    (tol : ℚ) : ℕ → ℕ → CGState d k → Int × CGState d k × ℕ
  | _, 0, s => (-6, s, 0)
  | itn, fuel + 1, s =>
    let s' := iterStep A lam M itn s
    if convCount tol s' = k then (-1, s', 1)
    else
      let r := cgLoop A lam M tol (itn + 1) fuel s'
      (r.1, r.2.1, r.2.2 + 1)

/-- The setup before the loop: `B = AᵀY` (one transposed Gemm into `B`);
`R` copy-initialised from `B`, then `Gemm(NORMAL,...,A,X,0,hermIntermed)`,
`Gemm(TRANSPOSE,...,-1,A,hermIntermed,+1,R)`, `Axpy(-lambda*n, X, R)`;
`P` copy-initialised from `X`; `nrmb = ColumnNrm2(B)` (stored squared);
`ressqr = ColumnDot(R, R)`.  The source allocates `rho0` as a copy of `nrmb`;
that value is dead (first read is in iteration 1, after `rho0 = rho` at the end
of iteration 0), so we store `nrmbSq` there; `cgLoop_rho0_init_irrelevant`
below proves no observable difference. -/
def initState {n d k : ℕ} (A : Mat n d) (Y : Mat n k) (X0 : Mat d k) (lam : ℚ) :
    CGState d k :=
  let B := mulTN A Y
  let nrmbSq := colDot B B
  let R0 : Mat d k := fun j i =>
    B j i - mulTN A (mulNN A X0) j i - lam * (n : ℚ) * X0 j i
  { B := B, nrmbSq := nrmbSq, X := X0, R := R0, P := X0,
    rho0 := nrmbSq, ressqr := colDot R0 R0 }

/-- The entry point `factorizedCG(A, Y, X, lambda, log, params, M)`:
clamp the tolerance, form `B` and the initial residual, run the loop.
`iter_lim` is `params.iter_lim` (a nonpositive limit runs zero iterations);
logging is pure observability and is not modelled. -/
def factorizedCG {n d k : ℕ} (A : Mat n d) (Y : Mat n k) (X0 : Mat d k)
    (lam : ℚ) (M : Option (Mat d k → Mat d k)) (tolerance : ℚ)
    (iter_lim : ℕ) : Int × CGState d k × ℕ :=
  cgLoop A lam M (clampTol tolerance) 0 iter_lim (initState A Y X0 lam)

/-- `stepN itn m s`: the state after `m` consecutive loop iterations starting
at loop counter `itn`. -/
def stepN {n d k : ℕ} (A : Mat n d) (lam : ℚ) (M : Option (Mat d k → Mat d k)) :
    ℕ → ℕ → CGState d k → CGState d k
  | _, 0, s => s
  | itn, m + 1, s => stepN A lam M (itn + 1) m (iterStep A lam M itn s)

/-- Number of applications of the normal-equation operator in a finished call:
`initState` applies it once (the fused `B − (AᵀA+λn·I)X₀` initial residual:
`Gemm(NORMAL)`, `Gemm(TRANSPOSE)`, `Axpy(-lambda*n,...)`) and each executed
loop iteration applies it exactly once (the `Q` computation), so the total is
one plus the returned iteration count. -/
def neOpApps {d k : ℕ} (r : Int × CGState d k × ℕ) : ℕ := 1 + r.2.2

/-- The identity design matrix. -/
def idMat (d : ℕ) : Mat d d := fun r c => if r = c then 1 else 0

/-- `iterStep` with the two unguarded divisions of the source made explicit:
`none` signals that a division `rho[i]/rho0[i]` (momentum) or
`rho[i]/rhotmp[i]` (step size) was about to divide by zero.  Otherwise it
computes exactly `iterStep`. -/
def iterStepChecked {n d k : ℕ} (A : Mat n d) (lam : ℚ)
    (M : Option (Mat d k → Mat d k)) (itn : ℕ) (s : CGState d k) :
    Option (CGState d k) :=
  if itn ≠ 0 ∧ ∃ i, s.rho0 i = 0 then none
  else
    let Z := ZOf M s
    let rho := rhoOf M s
    let beta := betaVec itn rho s.rho0
    let Pn : Mat d k := fun j i => s.P j i * beta i + Z j i
    let Q := NEOp A lam Pn
    let rhotmp := colDot Pn Q
    if ∃ i, rhotmp i = 0 then none
    else some (iterStep A lam M itn s)

/-- The loop with division-by-zero detection threaded through. -/
def cgLoopChecked {n d k : ℕ} (A : Mat n d) (lam : ℚ)
    (M : Option (Mat d k → Mat d k)) (tol : ℚ) :
    ℕ → ℕ → CGState d k → Option (Int × CGState d k × ℕ)
  | _, 0, s => some (-6, s, 0)
  | itn, fuel + 1, s =>
    match iterStepChecked A lam M itn s with
    | none => none
    | some s' =>
      if convCount tol s' = k then some (-1, s', 1)
      else (cgLoopChecked A lam M tol (itn + 1) fuel s').map
        (fun r => (r.1, r.2.1, r.2.2 + 1))

/-- The entry point over the checked loop. -/
def factorizedCGChecked {n d k : ℕ} (A : Mat n d) (Y : Mat n k) (X0 : Mat d k)
    (lam : ℚ) (M : Option (Mat d k → Mat d k)) (tolerance : ℚ)
    (iter_lim : ℕ) : Option (Int × CGState d k × ℕ) :=
  cgLoopChecked A lam M (clampTol tolerance) 0 iter_lim (initState A Y X0 lam)


/-! Shared lemmas (not tied to a single claim). -/

/-- Per-column dot product of a block with itself is a sum of squares. -/
theorem colDot_self_nonneg {m k : ℕ} (V : Mat m k) (i : Fin k) :
    0 ≤ colDot V V i :=
  Finset.sum_nonneg fun j _ => mul_self_nonneg (V j i)

/-- A column with a nonzero entry has positive squared norm. -/
theorem colDot_self_pos {m k : ℕ} (V : Mat m k) (i : Fin k)
    (h : ∃ j, V j i ≠ 0) : 0 < colDot V V i := by
  obtain ⟨j, hj⟩ := h
  exact Finset.sum_pos' (fun l _ => mul_self_nonneg (V l i))
    ⟨j, Finset.mem_univ j, mul_self_pos.mpr hj⟩

/-- The `convg == k` check holds exactly when every column passes the
per-column residual test. -/
theorem convCount_eq_iff {d k : ℕ} (tol : ℚ) (s : CGState d k) :
    convCount tol s = k ↔ ∀ i, s.ressqr i < tol ^ 2 * s.nrmbSq i := by
  constructor
  · intro h i
    have hall : Finset.univ.filter
        (fun i : Fin k => s.ressqr i < tol ^ 2 * s.nrmbSq i) = Finset.univ := by
      refine Finset.eq_of_subset_of_card_le (Finset.filter_subset _ _) ?_
      rw [Finset.card_univ, Fintype.card_fin]
      exact le_of_eq h.symm
    have hi : i ∈ Finset.univ.filter
        (fun i : Fin k => s.ressqr i < tol ^ 2 * s.nrmbSq i) := by
      rw [hall]; exact Finset.mem_univ i
    exact (Finset.mem_filter.mp hi).2
  · intro h
    unfold convCount
    rw [Finset.filter_eq_self.mpr fun i _ => h i, Finset.card_univ,
      Fintype.card_fin]

/-- The band bound `32ε` is positive. -/
theorem epsQ_pos : 0 < epsQ := by norm_num [epsQ, machineEps]

/-- The band bound `32ε` is below one. -/
theorem epsQ_lt_one : epsQ < 1 := by norm_num [epsQ, machineEps]

/-- The clamped tolerance is positive. -/
theorem clampTol_pos (t : ℚ) : 0 < clampTol t := by
  unfold clampTol
  split_ifs with h1 h2
  · exact epsQ_pos
  · linarith [epsQ_lt_one]
  · linarith [not_lt.mp h1, epsQ_pos]

/-- The clamped tolerance is below one. -/
theorem clampTol_lt_one (t : ℚ) : clampTol t < 1 := by
  unfold clampTol
  split_ifs with h1 h2
  · exact epsQ_lt_one
  · linarith [epsQ_pos]
  · exact not_le.mp h2

/-- The checked step agrees with the real step whenever no division by zero
was flagged. -/
theorem iterStepChecked_sound {n d k : ℕ} (A : Mat n d) (lam : ℚ)
    (M : Option (Mat d k → Mat d k)) (itn : ℕ) (s t : CGState d k)
    (h : iterStepChecked A lam M itn s = some t) :
    iterStep A lam M itn s = t := by
  simp only [iterStepChecked] at h
  split_ifs at h with h1 h2
  all_goals first
  | exact Option.noConfusion h
  | exact Option.some_inj.mp h

/-- The source allocates `rho0` as a copy of `nrmb`; that value is never read
(iteration 0 forces `beta = 0` and then overwrites `rho0`), so the loop's
result does not depend on how `rho0` is initialised. -/
theorem cgLoop_rho0_init_irrelevant {n d k : ℕ} (A : Mat n d) (lam : ℚ)
    (M : Option (Mat d k → Mat d k)) (tol : ℚ) (fuel : ℕ) (s : CGState d k)
    (v : Fin k → ℚ) (hf : 1 ≤ fuel) :
    cgLoop A lam M tol 0 fuel { s with rho0 := v } = cgLoop A lam M tol 0 fuel s := by
  obtain ⟨m, rfl⟩ : ∃ m, fuel = m + 1 :=
    ⟨fuel - 1, (Nat.succ_pred_eq_of_pos hf).symm⟩
  have hstep : iterStep A lam M 0 { s with rho0 := v } = iterStep A lam M 0 s := rfl
  simp only [cgLoop, hstep]

/-- Unfolding one iteration of `stepN`. -/
theorem stepN_succ {n d k : ℕ} (A : Mat n d) (lam : ℚ)
    (M : Option (Mat d k → Mat d k)) (itn m : ℕ) (s : CGState d k) :
    stepN A lam M itn (m + 1) s = stepN A lam M (itn + 1) m (iterStep A lam M itn s) :=
  rfl

/-- Behaviour of the iteration loop: it returns `-1` or `-6`; it executes at
most `fuel` iterations; the final state is the iterate after that many steps;
`-1` is returned only with every column converged; `-6` only after the whole
budget. -/
theorem cgLoop_spec {n d k : ℕ} (A : Mat n d) (lam : ℚ)
    (M : Option (Mat d k → Mat d k)) (tol : ℚ) :
    ∀ (fuel itn : ℕ) (s : CGState d k),
      ((cgLoop A lam M tol itn fuel s).1 = -1 ∨ (cgLoop A lam M tol itn fuel s).1 = -6)
      ∧ (cgLoop A lam M tol itn fuel s).2.2 ≤ fuel
      ∧ (cgLoop A lam M tol itn fuel s).2.1
          = stepN A lam M itn (cgLoop A lam M tol itn fuel s).2.2 s
      ∧ ((cgLoop A lam M tol itn fuel s).1 = -1 →
          convCount tol (cgLoop A lam M tol itn fuel s).2.1 = k)
      ∧ ((cgLoop A lam M tol itn fuel s).1 = -6 →
          (cgLoop A lam M tol itn fuel s).2.2 = fuel) := by
  intro fuel
  induction fuel with
  | zero =>
    intro itn s
    refine ⟨Or.inr rfl, Nat.le_refl 0, rfl, ?_, fun _ => rfl⟩
    intro h
    simp [cgLoop] at h
  | succ m ih =>
    intro itn s
    by_cases hc : convCount tol (iterStep A lam M itn s) = k
    · have he : cgLoop A lam M tol itn (m + 1) s = (-1, iterStep A lam M itn s, 1) := by
        simp only [cgLoop]
        rw [if_pos hc]
      rw [he]
      refine ⟨Or.inl rfl, Nat.succ_le_succ (Nat.zero_le m), rfl, fun _ => hc, ?_⟩
      intro h
      simp at h
    · have he : cgLoop A lam M tol itn (m + 1) s
          = ((cgLoop A lam M tol (itn + 1) m (iterStep A lam M itn s)).1,
             (cgLoop A lam M tol (itn + 1) m (iterStep A lam M itn s)).2.1,
             (cgLoop A lam M tol (itn + 1) m (iterStep A lam M itn s)).2.2 + 1) := by
        simp only [cgLoop]
        rw [if_neg hc]
      obtain ⟨ih1, ih2, ih3, ih4, ih5⟩ := ih (itn + 1) (iterStep A lam M itn s)
      rw [he]
      refine ⟨ih1, Nat.succ_le_succ ih2, ?_, ih4, fun h => by rw [ih5 h]⟩
      rw [stepN_succ]
      exact ih3

/-- If some column of `B` has zero norm, every convergence check fails (the
strict test compares a nonnegative number against zero), so the loop always
exhausts its budget and returns `-6`. -/
theorem cgLoop_zero_nrmb {n d k : ℕ} (A : Mat n d) (lam : ℚ)
    (M : Option (Mat d k → Mat d k)) (tol : ℚ) (i0 : Fin k) :
    ∀ (fuel itn : ℕ) (s : CGState d k), s.nrmbSq i0 = 0 →
      cgLoop A lam M tol itn fuel s = (-6, stepN A lam M itn fuel s, fuel) := by
  intro fuel
  induction fuel with
  | zero => intro itn s _; rfl
  | succ m ih =>
    intro itn s h
    have hpres : (iterStep A lam M itn s).nrmbSq i0 = 0 := h
    have hnc : convCount tol (iterStep A lam M itn s) ≠ k := by
      intro hk
      have hlt := (convCount_eq_iff tol _).mp hk i0
      rw [hpres, mul_zero] at hlt
      have hnn : (0 : ℚ) ≤ (iterStep A lam M itn s).ressqr i0 :=
        colDot_self_nonneg _ i0
      linarith
    simp only [cgLoop]
    rw [if_neg hnc, ih (itn + 1) _ hpres]
    rfl

/-- Multiplying by the transposed identity is the identity. -/
theorem mulTN_id {d k : ℕ} (V : Mat d k) : mulTN (idMat d) V = V := by
  funext j c
  unfold mulTN idMat
  simp [ite_mul, Finset.sum_ite_eq']

/-- Multiplying by the identity is the identity. -/
theorem mulNN_id {d k : ℕ} (V : Mat d k) : mulNN (idMat d) V = V := by
  funext r c
  unfold mulNN idMat
  simp [ite_mul, Finset.sum_ite_eq]

/-- With `A` the identity and `λ = 0` the normal-equation operator is the
identity. -/
theorem NEOp_id_zero {d k : ℕ} (V : Mat d k) : NEOp (idMat d) 0 V = V := by
  funext j i
  unfold NEOp
  rw [mulNN_id, mulTN_id]
  ring

/-- At iteration 0 with a zero residual block and no preconditioner, the
direction `P` becomes zero, hence `rhotmp = 0` and the checked step flags the
division `alpha[i] = rho[i]/rhotmp[i]`. -/
theorem iterStepChecked_zero_R {n d k : ℕ} (A : Mat n d) (lam : ℚ)
    (s : CGState d k) (i0 : Fin k) (hR : s.R = fun _ _ => 0) :
    iterStepChecked A lam none 0 s = none := by
  simp only [iterStepChecked]
  rw [if_neg (fun hcon => hcon.1 rfl)]
  have hPn : (fun j i => s.P j i * betaVec 0 (rhoOf none s) s.rho0 i + ZOf none s j i)
      = fun _ _ => (0 : ℚ) := by
    funext j i
    simp [betaVec, ZOf, hR]
  rw [hPn, if_pos ⟨i0, by simp [colDot]⟩]

/-- With `A` the identity, `λ = 0`, no preconditioner and a state whose
residual is the full right-hand side (and zero iterate), iteration 0 lands
exactly on the solution: `alpha = 1`, `X` becomes `Y`, the residual vanishes. -/
theorem iterStep_exact_recovery {d k : ℕ} (Y : Mat d k) (s : CGState d k)
    (hR : s.R = Y) (hress : s.ressqr = colDot Y Y) (hX : s.X = fun _ _ => 0)
    (hnz : ∀ i, colDot Y Y i ≠ 0) :
    (iterStep (idMat d) 0 none 0 s).X = Y
    ∧ (iterStep (idMat d) 0 none 0 s).R = (fun _ _ => 0)
    ∧ (iterStep (idMat d) 0 none 0 s).ressqr = (fun _ => 0) := by
  have hPn : (fun j i => s.P j i * betaVec 0 (rhoOf none s) s.rho0 i + ZOf none s j i) = Y := by
    funext j i
    simp [betaVec, ZOf, hR]
  have hPna : ∀ (j : Fin d) (i : Fin k),
      s.P j i * betaVec 0 (rhoOf none s) s.rho0 i + ZOf none s j i = Y j i :=
    fun j i => congrFun (congrFun hPn j) i
  have hRn : (iterStep (idMat d) 0 none 0 s).R = (fun _ _ => 0) := by
    funext j i
    simp only [iterStep, hPn, hPna]
    simp only [NEOp_id_zero, rhoOf, hress, hR]
    rw [div_self (hnz i)]
    ring
  refine ⟨?_, hRn, ?_⟩
  · funext j i
    simp only [iterStep, hPn, hPna]
    simp only [NEOp_id_zero, rhoOf, hress, hX]
    rw [div_self (hnz i)]
    ring
  · have he : (iterStep (idMat d) 0 none 0 s).ressqr
        = colDot (iterStep (idMat d) 0 none 0 s).R (iterStep (idMat d) 0 none 0 s).R := rfl
    rw [he, hRn]
    funext i
    simp [colDot]

/-- The initial state for `A = I`, `X₀ = 0`, `λ = 0`: the residual is the
right-hand side `Y` itself. -/
theorem initState_id_zero {d k : ℕ} (Y : Mat d k) :
    (initState (idMat d) Y (fun _ _ => 0) 0).R = Y
    ∧ (initState (idMat d) Y (fun _ _ => 0) 0).ressqr = colDot Y Y
    ∧ (initState (idMat d) Y (fun _ _ => 0) 0).X = (fun _ _ => 0)
    ∧ (initState (idMat d) Y (fun _ _ => 0) 0).nrmbSq = colDot Y Y := by
  have hR : (initState (idMat d) Y (fun _ _ => 0) 0).R = Y := by
    funext j i
    simp only [initState]
    simp [mulTN_id, mulNN_id]
  refine ⟨hR, ?_, rfl, ?_⟩
  · have he : (initState (idMat d) Y (fun _ _ => 0) 0).ressqr
        = colDot (initState (idMat d) Y (fun _ _ => 0) 0).R
            (initState (idMat d) Y (fun _ _ => 0) 0).R := rfl
    rw [he, hR]
  · have he : (initState (idMat d) Y (fun _ _ => 0) 0).nrmbSq
        = colDot (initState (idMat d) Y (fun _ _ => 0) 0).B
            (initState (idMat d) Y (fun _ _ => 0) 0).B := rfl
    rw [he, show (initState (idMat d) Y (fun _ _ => (0:ℚ)) 0).B = Y from mulTN_id Y]

/-- Claim C1: every loop iteration performs the spec's recurrence in order:
the direction block is updated as `P = P·diag(beta) + Z` (each column of `P`
scaled by its own `beta[i]`, then `Z` added); then `Q = (AᵀA + λn·I)·P` is
formed (two multiplications plus the `λn` scaled add); then for every column
`alpha[i] = rho[i] / rhotmp[i]` with `rhotmp[i] = P_iᵀQ_i`; and then
`X` becomes `X + P·diag(alpha)` and `R` becomes `R − Q·diag(alpha)`. -/
theorem factorizedCG_iteration_order {n d k : ℕ} (A : Mat n d) (lam : ℚ)
    (M : Option (Mat d k → Mat d k)) (itn : ℕ) (s : CGState d k) :
    (iterStep A lam M itn s).P
      = (fun j i => s.P j i * betaVec itn (rhoOf M s) s.rho0 i + ZOf M s j i)
    ∧ NEOp A lam (iterStep A lam M itn s).P
      = (fun j i => mulTN A (mulNN A (iterStep A lam M itn s).P) j i
          + lam * (n : ℚ) * (iterStep A lam M itn s).P j i)
    ∧ (iterStep A lam M itn s).X
      = (fun j i => s.X j i
          + rhoOf M s i
              / colDot (iterStep A lam M itn s).P (NEOp A lam (iterStep A lam M itn s).P) i
            * (iterStep A lam M itn s).P j i)
    ∧ (iterStep A lam M itn s).R
      = (fun j i => s.R j i
          - rhoOf M s i
              / colDot (iterStep A lam M itn s).P (NEOp A lam (iterStep A lam M itn s).P) i
            * NEOp A lam (iterStep A lam M itn s).P j i) :=
  ⟨rfl, rfl, rfl, rfl⟩

/-- Claim C2: the right-hand side `B = AᵀY` is computed once before the loop,
the residual is initialised once to `R = B − (AᵀA + λn·I)·X₀` (with `n` the
height of `A`), and no loop iteration recomputes `B`. -/
theorem factorizedCG_rhs_once {n d k : ℕ} (A : Mat n d) (Y : Mat n k)
    (X0 : Mat d k) (lam : ℚ) (M : Option (Mat d k → Mat d k)) :
    (initState A Y X0 lam).B = mulTN A Y
    ∧ (initState A Y X0 lam).R = (fun j i => mulTN A Y j i - NEOp A lam X0 j i)
    ∧ (∀ (itn : ℕ) (s : CGState d k), (iterStep A lam M itn s).B = s.B) := by
  refine ⟨rfl, ?_, fun itn s => rfl⟩
  funext j i
  show mulTN A Y j i - mulTN A (mulNN A X0) j i - lam * (n : ℚ) * X0 j i
      = mulTN A Y j i - NEOp A lam X0 j i
  unfold NEOp
  ring

/-- Claim C5: the solver always terminates returning exactly one of the two
status codes, `-1` (success, every column passed the convergence test at the
final state) or `-6` (iteration budget exhausted); the embedding is a total
function, so no exceptional outcome exists; and in both cases the returned
state — whose `X` field is the solution block — is the iterate obtained from
the initial state by the executed iterations. -/
theorem factorizedCG_status_codes {n d k : ℕ} (A : Mat n d) (Y : Mat n k)
    (X0 : Mat d k) (lam : ℚ) (M : Option (Mat d k → Mat d k)) (t : ℚ) (L : ℕ) :
    ((factorizedCG A Y X0 lam M t L).1 = -1 ∨ (factorizedCG A Y X0 lam M t L).1 = -6)
    ∧ (factorizedCG A Y X0 lam M t L).2.1
        = stepN A lam M 0 (factorizedCG A Y X0 lam M t L).2.2 (initState A Y X0 lam)
    ∧ ((factorizedCG A Y X0 lam M t L).1 = -1 →
        convCount (clampTol t) (factorizedCG A Y X0 lam M t L).2.1 = k) := by
  obtain ⟨h1, _, h3, h4, _⟩ := cgLoop_spec A lam M (clampTol t) L 0 (initState A Y X0 lam)
  exact ⟨h1, h3, h4⟩

/-- Claim C7: the momentum coefficient is zero for every column on the first
iteration (`itn = 0`) and `beta[i] = rho[i] / rho0[i]` on all later ones; the
step writes `rho0 = rho` exactly once per iteration (after the updates, before
the next iteration's `beta`); and the direction update uses exactly these
coefficients. -/
theorem factorizedCG_momentum {n d k : ℕ} (A : Mat n d) (lam : ℚ)
    (M : Option (Mat d k → Mat d k)) :
    (∀ rho rho0 : Fin k → ℚ, betaVec 0 rho rho0 = fun _ => 0)
    ∧ (∀ (itn : ℕ) (rho rho0 : Fin k → ℚ),
        betaVec (itn + 1) rho rho0 = fun i => rho i / rho0 i)
    ∧ (∀ (itn : ℕ) (s : CGState d k), (iterStep A lam M itn s).rho0 = rhoOf M s)
    ∧ (∀ (itn : ℕ) (s : CGState d k), (iterStep A lam M itn s).P
        = fun j i => s.P j i * betaVec itn (rhoOf M s) s.rho0 i + ZOf M s j i) := by
  refine ⟨fun _ _ => rfl, fun itn rho rho0 => ?_, fun _ _ => rfl, fun _ _ => rfl⟩
  unfold betaVec
  rw [if_neg (Nat.succ_ne_zero itn)]

/-- Claim C3: `nrmb` is computed once before the loop from `B` and never
recomputed; each iteration recomputes `ressqr[i] = R_iᵀR_i`; the loop's
success condition `convg == k` holds exactly when every column passes the
strict test; and that test — stated here in squared form — is equivalent over
the reals to the code's `sqrt(ressqr[i]) < tolerance · nrmb[i]` whenever the
tolerance is positive and both quantities are nonnegative (which all reachable
states satisfy, `ressqr`/`nrmbSq` being sums of squares and the clamped
tolerance positive). -/
theorem factorizedCG_convergence_policy {n d k : ℕ} (A : Mat n d) (Y : Mat n k)
    (X0 : Mat d k) (lam : ℚ) (M : Option (Mat d k → Mat d k))
    (tol rs bs : ℚ) (htol : 0 < tol) (hrs : 0 ≤ rs) (hbs : 0 ≤ bs) :
    (initState A Y X0 lam).nrmbSq = colDot (mulTN A Y) (mulTN A Y)
    ∧ (∀ (itn : ℕ) (s : CGState d k), (iterStep A lam M itn s).nrmbSq = s.nrmbSq)
    ∧ (∀ (itn : ℕ) (s : CGState d k), (iterStep A lam M itn s).ressqr
        = colDot (iterStep A lam M itn s).R (iterStep A lam M itn s).R)
    ∧ (∀ (tol' : ℚ) (s : CGState d k),
        convCount tol' s = k ↔ ∀ i, s.ressqr i < tol' ^ 2 * s.nrmbSq i)
    ∧ (rs < tol ^ 2 * bs ↔ Real.sqrt (rs : ℝ) < (tol : ℝ) * Real.sqrt (bs : ℝ)) := by
  refine ⟨rfl, fun _ _ => rfl, fun _ _ => rfl, convCount_eq_iff, ?_⟩
  by_cases hb0 : bs = 0
  · subst hb0
    have hL : ¬(rs < tol ^ 2 * 0) := by
      rw [mul_zero]
      exact not_lt.mpr hrs
    have hRheld : ¬(Real.sqrt (rs : ℝ) < (tol : ℝ) * Real.sqrt ((0 : ℚ) : ℝ)) := by
      rw [Rat.cast_zero, Real.sqrt_zero, mul_zero]
      exact not_lt.mpr (Real.sqrt_nonneg _)
    exact iff_of_false hL hRheld
  · have hbpos : (0 : ℚ) < bs := lt_of_le_of_ne hbs (Ne.symm hb0)
    have hbR : (0 : ℝ) < (bs : ℝ) := by exact_mod_cast hbpos
    have htR : (0 : ℝ) < (tol : ℝ) := by exact_mod_cast htol
    have hy : (0 : ℝ) < (tol : ℝ) * Real.sqrt (bs : ℝ) :=
      mul_pos htR (Real.sqrt_pos.mpr hbR)
    rw [Real.sqrt_lt' hy, mul_pow, Real.sq_sqrt (le_of_lt hbR),
      show ((tol : ℝ) ^ 2 * (bs : ℝ)) = ((tol ^ 2 * bs : ℚ) : ℝ) by push_cast; ring]
    exact Rat.cast_lt.symm

/-- Claim C3's witness at `tol = 1/2`, `rs = 1`, `bs = 16`. -/
theorem factorizedCG_convergence_policy_witness :
    (0 < (1/2 : ℚ)) ∧ (0 ≤ (1 : ℚ)) ∧ (0 ≤ (16 : ℚ))
    ∧ ((initState (idMat 1) ((fun _ _ => 1) : Mat 1 1) ((fun _ _ => 0) : Mat 1 1) 0).nrmbSq
        = colDot (mulTN (idMat 1) ((fun _ _ => 1) : Mat 1 1))
            (mulTN (idMat 1) ((fun _ _ => 1) : Mat 1 1))
      ∧ (∀ (itn : ℕ) (s : CGState 1 1), (iterStep (idMat 1) 0 none itn s).nrmbSq = s.nrmbSq)
      ∧ (∀ (itn : ℕ) (s : CGState 1 1), (iterStep (idMat 1) 0 none itn s).ressqr
          = colDot (iterStep (idMat 1) 0 none itn s).R (iterStep (idMat 1) 0 none itn s).R)
      ∧ (∀ (tol' : ℚ) (s : CGState 1 1),
          convCount tol' s = 1 ↔ ∀ i, s.ressqr i < tol' ^ 2 * s.nrmbSq i)
      ∧ ((1 : ℚ) < (1/2) ^ 2 * 16
          ↔ Real.sqrt ((1 : ℚ) : ℝ) < ((1/2 : ℚ) : ℝ) * Real.sqrt ((16 : ℚ) : ℝ))) :=
  ⟨by norm_num, by norm_num, by norm_num,
    factorizedCG_convergence_policy (idMat 1) ((fun _ _ => 1) : Mat 1 1)
      ((fun _ _ => 0) : Mat 1 1) 0 none (1/2) 1 16
      (by norm_num) (by norm_num) (by norm_num)⟩

/-- Claim C4, counterexample: a call with `iteration_limit = 0` still applies
the normal-equation operator once — forming the initial residual — so the
"at most L applications over the whole call" bound fails at `L = 0`. -/
theorem factorizedCG_op_budget_counterexample :
    neOpApps (factorizedCG (idMat 1) ((fun _ _ => 1) : Mat 1 1) ((fun _ _ => 0) : Mat 1 1)
        0 none (1/2) 0) = 1
    ∧ ¬(neOpApps (factorizedCG (idMat 1) ((fun _ _ => 1) : Mat 1 1) ((fun _ _ => 0) : Mat 1 1)
        0 none (1/2) 0) ≤ 0) := by
  refine ⟨rfl, ?_⟩
  intro hcon
  have h1 : neOpApps (factorizedCG (idMat 1) ((fun _ _ => 1) : Mat 1 1)
      ((fun _ _ => 0) : Mat 1 1) 0 none (1/2) 0) = 1 := rfl
  rw [h1] at hcon
  exact absurd hcon (by omega)

/-- Claim C4 as amended: with `iteration_limit = L` the loop executes at most
`L` iterations (one operator application each) and the initial residual adds
one more, so the whole call applies the normal-equation operator at most
`L + 1` times; the call returns `-6` (limit exceeded) only after executing all
`L` iterations, and always returns either `-1` or `-6`. -/
theorem factorizedCG_op_budget {n d k : ℕ} (A : Mat n d) (Y : Mat n k)
    (X0 : Mat d k) (lam : ℚ) (M : Option (Mat d k → Mat d k)) (t : ℚ) (L : ℕ) :
    neOpApps (factorizedCG A Y X0 lam M t L) ≤ L + 1
    ∧ (factorizedCG A Y X0 lam M t L).2.2 ≤ L
    ∧ ((factorizedCG A Y X0 lam M t L).1 = -6 → (factorizedCG A Y X0 lam M t L).2.2 = L)
    ∧ ((factorizedCG A Y X0 lam M t L).1 = -1 →
        convCount (clampTol t) (factorizedCG A Y X0 lam M t L).2.1 = k)
    ∧ ((factorizedCG A Y X0 lam M t L).1 = -1 ∨ (factorizedCG A Y X0 lam M t L).1 = -6) := by
  obtain ⟨h1, h2, _, h4, h5⟩ := cgLoop_spec A lam M (clampTol t) L 0 (initState A Y X0 lam)
  refine ⟨?_, h2, h5, h4, h1⟩
  have he : neOpApps (factorizedCG A Y X0 lam M t L)
      = 1 + (cgLoop A lam M (clampTol t) 0 L (initState A Y X0 lam)).2.2 := rfl
  rw [he]
  omega

/-- Claim C6, counterexample: a tolerance strictly between `1 − 32ε` and `1`
passes through the entry check unchanged, so the effective tolerance does not
lie in the claimed band `[32ε, 1 − 32ε]`. -/
theorem clampTol_band_counterexample :
    clampTol (1 - 1 / 2 ^ 50) = 1 - 1 / 2 ^ 50
    ∧ ¬((1 : ℚ) - 1 / 2 ^ 50 ≤ 1 - epsQ) := by
  constructor
  · have h1 : ¬((1 : ℚ) - 1 / 2 ^ 50 < epsQ) := by norm_num [epsQ, machineEps]
    have h2 : ¬((1 : ℚ) ≤ 1 - 1 / 2 ^ 50) := by norm_num
    unfold clampTol
    rw [if_neg h1, if_neg h2]
  · norm_num [epsQ, machineEps]

/-- Claim C6 as amended: every tolerance is accepted (the clamp is total, the
call is never rejected); the effective tolerance always lies in `[32ε, 1)` —
values below `32ε` are raised to `32ε`, values `≥ 1` are lowered to `1 − 32ε`,
and in particular `2.0` and `0` are corrected into `[32ε, 1 − 32ε]` — but a
supplied tolerance inside `(1 − 32ε, 1)` is kept as is. -/
theorem clampTol_effective_band (t : ℚ) :
    epsQ ≤ clampTol t ∧ clampTol t < 1
    ∧ clampTol 2 = 1 - epsQ ∧ clampTol 0 = epsQ
    ∧ epsQ ≤ 1 - epsQ := by
  refine ⟨?_, clampTol_lt_one t, ?_, ?_, by norm_num [epsQ, machineEps]⟩
  · unfold clampTol
    split_ifs with h1 h2
    · exact le_refl _
    · norm_num [epsQ, machineEps]
    · exact not_lt.mp h1
  · unfold clampTol
    rw [if_neg (by norm_num [epsQ, machineEps]), if_pos (by norm_num)]
  · unfold clampTol
    rw [if_pos (by norm_num [epsQ, machineEps])]

/-- Claim C8: the divisions `beta[i] = rho[i]/rho0[i]` and
`alpha[i] = rho[i]/rhotmp[i]` carry no zero-denominator guard.  A reachable
state with `rhotmp[i] = 0` exists: with `Y = 0` the initial residual is zero,
the first direction block is zero, and `rhotmp = PᵀQ = 0`, so the guarded
embedding's division-by-zero branch fires on the very first iteration
(`factorizedCGChecked` returns `none`), while the unguarded solver performs
the division anyway and runs to the iteration limit. -/
theorem factorizedCG_division_unguarded :
    factorizedCGChecked (idMat 1) ((fun _ _ => 0) : Mat 1 1) ((fun _ _ => 0) : Mat 1 1)
        0 none (1/2) 1 = none
    ∧ (factorizedCG (idMat 1) ((fun _ _ => 0) : Mat 1 1) ((fun _ _ => 0) : Mat 1 1)
        0 none (1/2) 1).1 = -6 := by
  have hR : (initState (idMat 1) ((fun _ _ => 0) : Mat 1 1) ((fun _ _ => 0) : Mat 1 1) 0).R
      = fun _ _ => 0 := by
    funext j i
    simp [initState, mulTN, mulNN, idMat]
  constructor
  · have he : factorizedCGChecked (idMat 1) ((fun _ _ => 0) : Mat 1 1)
        ((fun _ _ => 0) : Mat 1 1) 0 none (1/2) 1
        = cgLoopChecked (idMat 1) 0 none (clampTol (1/2)) 0 (0 + 1)
            (initState (idMat 1) ((fun _ _ => 0) : Mat 1 1) ((fun _ _ => 0) : Mat 1 1) 0) :=
      rfl
    rw [he]
    simp only [cgLoopChecked]
    rw [iterStepChecked_zero_R (idMat 1) 0 _ 0 hR]
  · have hn : (initState (idMat 1) ((fun _ _ => 0) : Mat 1 1)
        ((fun _ _ => 0) : Mat 1 1) 0).nrmbSq 0 = 0 := by
      simp [initState, colDot, mulTN, idMat]
    rw [show factorizedCG (idMat 1) ((fun _ _ => 0) : Mat 1 1) ((fun _ _ => 0) : Mat 1 1)
          0 none (1/2) 1
        = cgLoop (idMat 1) 0 none (clampTol (1/2)) 0 1
            (initState (idMat 1) ((fun _ _ => 0) : Mat 1 1) ((fun _ _ => 0) : Mat 1 1) 0)
        from rfl,
      cgLoop_zero_nrmb (idMat 1) 0 none (clampTol (1/2)) 0 1 0 _ hn]

/-- Claim C9, counterexample: with `A` the 1×1 identity, `λ = 0`, `X₀ = 0` and
the target `Y = 0`, one iteration does not end in success: the zero column of
`Y` gives `nrmb[0] = 0`, the strict convergence test fails, and the solver
returns `-6`, not the success code. -/
theorem factorizedCG_exact_recovery_counterexample :
    (factorizedCG (idMat 1) ((fun _ _ => 0) : Mat 1 1) ((fun _ _ => 0) : Mat 1 1)
        0 none (1/1000000) 1).1 = -6
    ∧ ¬((factorizedCG (idMat 1) ((fun _ _ => 0) : Mat 1 1) ((fun _ _ => 0) : Mat 1 1)
        0 none (1/1000000) 1).1 = -1) := by
  have hn : (initState (idMat 1) ((fun _ _ => 0) : Mat 1 1)
      ((fun _ _ => 0) : Mat 1 1) 0).nrmbSq 0 = 0 := by
    simp [initState, colDot, mulTN, idMat]
  rw [show factorizedCG (idMat 1) ((fun _ _ => 0) : Mat 1 1) ((fun _ _ => 0) : Mat 1 1)
        0 none (1/1000000) 1
      = cgLoop (idMat 1) 0 none (clampTol (1/1000000)) 0 1
          (initState (idMat 1) ((fun _ _ => 0) : Mat 1 1) ((fun _ _ => 0) : Mat 1 1) 0)
      from rfl,
    cgLoop_zero_nrmb (idMat 1) 0 none (clampTol (1/1000000)) 0 1 0 _ hn]
  exact ⟨rfl, by norm_num⟩

/-- Claim C9 as amended: for every target block `Y` all of whose columns are
nonzero, with `A` the identity, `λ = 0` and `X₀ = 0`, the solver returns the
success code after exactly one iteration and the returned `X` equals `Y`
(in exact arithmetic).  A zero column makes `nrmb[i] = 0` and the strict test
unsatisfiable, so the nonzero-column restriction is forced. -/
theorem factorizedCG_exact_recovery {d k : ℕ} (Y : Mat d k) (t : ℚ) (L : ℕ)
    (hY : ∀ i, ∃ j, Y j i ≠ 0) (hL : 1 ≤ L) :
    (factorizedCG (idMat d) Y (fun _ _ => 0) 0 none t L).1 = -1
    ∧ (factorizedCG (idMat d) Y (fun _ _ => 0) 0 none t L).2.1.X = Y
    ∧ (factorizedCG (idMat d) Y (fun _ _ => 0) 0 none t L).2.2 = 1 := by
  obtain ⟨m, rfl⟩ : ∃ m, L = m + 1 := ⟨L - 1, (Nat.succ_pred_eq_of_pos hL).symm⟩
  have hnz : ∀ i, colDot Y Y i ≠ 0 := fun i => ne_of_gt (colDot_self_pos Y i (hY i))
  obtain ⟨hR0, hress0, hX0, hnrm0⟩ := initState_id_zero Y
  obtain ⟨hX1, hR1, hress1⟩ := iterStep_exact_recovery Y _ hR0 hress0 hX0 hnz
  have hnrm1 : (iterStep (idMat d) 0 none 0
      (initState (idMat d) Y (fun _ _ => 0) 0)).nrmbSq = colDot Y Y := hnrm0
  have hconv : convCount (clampTol t)
      (iterStep (idMat d) 0 none 0 (initState (idMat d) Y (fun _ _ => 0) 0)) = k := by
    rw [convCount_eq_iff]
    intro i
    rw [hress1, hnrm1]
    have h1 : 0 < clampTol t ^ 2 := pow_pos (clampTol_pos t) 2
    have h2 : 0 < colDot Y Y i := colDot_self_pos Y i (hY i)
    simpa using mul_pos h1 h2
  rw [show factorizedCG (idMat d) Y (fun _ _ => 0) 0 none t (m + 1)
      = cgLoop (idMat d) 0 none (clampTol t) 0 (m + 1)
          (initState (idMat d) Y (fun _ _ => 0) 0) from rfl]
  have hrun : cgLoop (idMat d) 0 none (clampTol t) 0 (m + 1)
      (initState (idMat d) Y (fun _ _ => 0) 0)
      = (-1, iterStep (idMat d) 0 none 0 (initState (idMat d) Y (fun _ _ => 0) 0), 1) := by
    simp only [cgLoop]
    rw [if_pos hconv]
  rw [hrun]
  exact ⟨rfl, hX1, rfl⟩

/-- Claim C9's witness at `Y = [2]` (1×1), `t = 1/2`, `L = 3`. -/
theorem factorizedCG_exact_recovery_witness :
    (∀ i, ∃ j, ((fun _ _ => 2) : Mat 1 1) j i ≠ 0) ∧ (1 ≤ 3)
    ∧ ((factorizedCG (idMat 1) ((fun _ _ => 2) : Mat 1 1) (fun _ _ => 0) 0 none (1/2) 3).1 = -1
      ∧ (factorizedCG (idMat 1) ((fun _ _ => 2) : Mat 1 1) (fun _ _ => 0) 0 none (1/2) 3).2.1.X
          = ((fun _ _ => 2) : Mat 1 1)
      ∧ (factorizedCG (idMat 1) ((fun _ _ => 2) : Mat 1 1) (fun _ _ => 0) 0 none (1/2) 3).2.2
          = 1) :=
  ⟨fun i => ⟨0, by norm_num⟩, by norm_num,
    factorizedCG_exact_recovery ((fun _ _ => 2) : Mat 1 1) (1/2) 3
      (fun i => ⟨0, by norm_num⟩) (by norm_num)⟩

/-- Claim C10: if some column of `B = AᵀY` has zero norm, the strict test
`sqrt(ressqr[i]) < tolerance · nrmb[i]` compares a nonnegative quantity
against zero and can never hold for that column — even with a zero residual —
so the solver never returns success: it always runs all `L` iterations and
returns the limit-exceeded code `-6`. -/
theorem factorizedCG_zero_rhs_column {n d k : ℕ} (A : Mat n d) (Y : Mat n k)
    (X0 : Mat d k) (lam : ℚ) (M : Option (Mat d k → Mat d k)) (t : ℚ) (L : ℕ)
    (h : ∃ i, colDot (mulTN A Y) (mulTN A Y) i = 0) :
    (factorizedCG A Y X0 lam M t L).1 = -6
    ∧ (factorizedCG A Y X0 lam M t L).2.2 = L := by
  obtain ⟨i0, hi⟩ := h
  have hn : (initState A Y X0 lam).nrmbSq i0 = 0 := hi
  rw [show factorizedCG A Y X0 lam M t L
      = cgLoop A lam M (clampTol t) 0 L (initState A Y X0 lam) from rfl,
    cgLoop_zero_nrmb A lam M (clampTol t) i0 L 0 _ hn]
  exact ⟨rfl, rfl⟩

/-- Claim C10's witness: `A = I` (1×1), `Y = 0`, `X₀ = [3]`, `λ = 1`,
`t = 1/2`, `L = 2`. -/
theorem factorizedCG_zero_rhs_column_witness :
    (∃ i, colDot (mulTN (idMat 1) ((fun _ _ => 0) : Mat 1 1))
        (mulTN (idMat 1) ((fun _ _ => 0) : Mat 1 1)) i = 0)
    ∧ ((factorizedCG (idMat 1) ((fun _ _ => 0) : Mat 1 1) ((fun _ _ => 3) : Mat 1 1)
          1 none (1/2) 2).1 = -6
      ∧ (factorizedCG (idMat 1) ((fun _ _ => 0) : Mat 1 1) ((fun _ _ => 3) : Mat 1 1)
          1 none (1/2) 2).2.2 = 2) :=
  ⟨⟨0, by simp [colDot, mulTN]⟩,
    factorizedCG_zero_rhs_column (idMat 1) ((fun _ _ => 0) : Mat 1 1)
      ((fun _ _ => 3) : Mat 1 1) 1 none (1/2) 2 ⟨0, by simp [colDot, mulTN]⟩⟩
